import Mathlib

/-
Verification development for the hierarchy package
(gyermelyi/hierarchy/hierarchy.py).

The Python class Hierarchy builds, from a collection of (parent, child)
edge pairs, the set of all root-to-node paths and flattens them into
fixed-width rows.  Below is a shallow embedding of the class:

  * HState        models the instance attributes of a Hierarchy object;
  * HMap          models a defaultdict(set) as an association list whose
                  key order is insertion order and whose value lists are
                  duplicate-free (set semantics with a canonical order);
  * create_mapping, find_root, build_path, create_hierarchy,
    delete_hierarchy, flatten_hierarchy, to_tuples, to_dataframe
                  are direct translations of the methods of the same
                  names (unbounded Python recursion / while loops become
                  fuel-indexed recursion; raised-and-caught exceptions
                  become Except / Option values).

Python sets are modelled as duplicate-free lists; all properties proved
about them are order-insensitive (memberships and set-style equalities),
so the arbitrary iteration order of a Python set is never relied upon.
-/

/-- An association-list model of a Python defaultdict(set): keys in
insertion order, each value list duplicate-free. -/
abbrev HMap (α : Type) : Type := List (α × List α)

/-- Models Python set.add on the value list: append the value if absent. -/
def addVal {α : Type} [DecidableEq α] (vs : List α) (v : α) : List α :=
  if v ∈ vs then vs else vs ++ [v]

/-- Key lookup (dict.get semantics: none when the key is absent). -/
def mapFind? {α : Type} [DecidableEq α] : HMap α → α → Option (List α)
  | [], _ => none
  | (k, vs) :: rest, k' => if k' = k then some vs else mapFind? rest k'

/-- Lookup defaulting to the empty value set for an absent key. -/
def lookupD {α : Type} [DecidableEq α] (m : HMap α) (k : α) : List α :=
  (mapFind? m k).getD []

/-- Does the map have an entry for this key (Python: k in d)? -/
def keyIn {α : Type} [DecidableEq α] (m : HMap α) (k : α) : Prop :=
  mapFind? m k ≠ none

instance {α : Type} [DecidableEq α] (m : HMap α) (k : α) : Decidable (keyIn m k) := by
  unfold keyIn; infer_instance

/-- Models d[k].add(v) on a defaultdict(set): extend the entry for k
(creating it at the end if absent, as Python dicts keep insertion order). -/
def mapAdd {α : Type} [DecidableEq α] : HMap α → α → α → HMap α
  | [], k, v => [(k, [v])]
  | (k', vs) :: rest, k, v =>
    if k = k' then (k', addVal vs v) :: rest else (k', vs) :: mapAdd rest k v

/-- Models the bare defaultdict access d[k]: create an empty entry for an
absent key, leave the map unchanged otherwise. -/
def mapTouch {α : Type} [DecidableEq α] : HMap α → α → HMap α
  | [], k => [(k, [])]
  | (k', vs) :: rest, k =>
    if k = k' then (k', vs) :: rest else (k', vs) :: mapTouch rest k

/-- The keys of the map, in insertion order (dict.keys()). -/
def mapKeys {α : Type} (m : HMap α) : List α := m.map (fun kv => kv.1)

/-- Canonical model of collecting elements into a Python set: keep the
first occurrence of each element. -/
def setOfList {α : Type} [DecidableEq α] (l : List α) : List α :=
  l.foldl (fun acc x => if x ∈ acc then acc else acc ++ [x]) []

/-- Models hierarchy.add(tuple(path)) on the path set. -/
def hierAdd {α : Type} [DecidableEq α] (h : List (List α)) (p : List α) : List (List α) :=
  if p ∈ h then h else h ++ [p]

/-- The instance attributes of a Hierarchy object.  The metadata and
hierarchydb attributes are external collaborators (config and database
adapters); the claims only ever require them to be carried along
unchanged, so they are modelled as inert optional tokens. -/
structure HState (α : Type) where
  source : Option (List (α × α))
  hierarchy : Option (List (List α))
  level : String
  primkey : String
  parent_map : HMap α
  child_map : HMap α
  metadata : Option Unit
  hierarchydb : Option Unit

/-- The error condition of _validate for a malformed source
(TypeError/ValueError in Python; the spec calls it InvalidSourceShape). -/
inductive SourceErr : Type
  | invalidSourceShape
deriving DecidableEq

/-- Hierarchy.__init__ with a list/tuple source given as raw rows of
arbitrary width: _validate requires every row to have exactly two
elements, and only then is the object (with both maps empty) created.
The defaults self.level = "LVL" and self.primkey = "PK" are those of the
Python class. -/
def hierarchyInit {α : Type} [DecidableEq α] (rows : List (List α)) :
    Except SourceErr (HState α) :=
  if rows.all (fun r => r.length = 2) then
    Except.ok
      { source := some (rows.filterMap (fun r => match r with | [p, c] => some (p, c) | _ => none))
        hierarchy := none
        level := "LVL"
        primkey := "PK"
        parent_map := []
        child_map := []
        metadata := none
        hierarchydb := none }
  else Except.error SourceErr.invalidSourceShape

/-- A Hierarchy object freshly constructed from an already well-shaped
pair list (the state hierarchyInit yields on a valid source). -/
def mkState {α : Type} (src : List (α × α)) : HState α :=
  { source := some src
    hierarchy := none
    level := "LVL"
    primkey := "PK"
    parent_map := []
    child_map := []
    metadata := none
    hierarchydb := none }

/-- One iteration of the loop body of _create_mapping: for a pair with
parent != child add the edge to both maps, for a self-pair only touch
parent_map (registering the node with no children). -/
def mapStep {α : Type} [DecidableEq α] (maps : HMap α × HMap α) (pc : α × α) :
    HMap α × HMap α :=
  if pc.1 = pc.2 then (mapTouch maps.1 pc.1, maps.2)
  else (mapAdd maps.1 pc.1 pc.2, mapAdd maps.2 pc.2 pc.1)

/-- _create_mapping: fold the loop body over the source pairs, starting
from the current (parent_map, child_map) of the object — the method adds
into the existing defaultdicts, it does not clear them. -/
def create_mapping {α : Type} [DecidableEq α] (source : List (α × α))
    (maps : HMap α × HMap α) : HMap α × HMap α :=
  source.foldl mapStep maps

/-- _find_root: walk upward through child_map, at each step replacing the
node by the first recorded parent, until the node has no entry.  The
Python while loop may diverge on cyclic input, so the walk is
fuel-indexed; exhausted fuel returns the node reached so far. -/
def find_root {α : Type} [DecidableEq α] (cm : HMap α) : Nat → α → α
  | 0, node => node
  | fuel + 1, node =>
    match mapFind? cm node with
    | some (p :: _) => find_root cm fuel p
    | _ => node

/-- _build_path: append the node to the path; if the node has no children
(absent from parent_map or mapped to an empty set) record the path,
otherwise record the path once per child and recurse on each child with a
copy of the path.  Python's unbounded recursion is fuel-indexed;
exhausted fuel stops without recording anything further. -/
def build_path {α : Type} [DecidableEq α] (pm : HMap α) :
    Nat → α → List α → List (List α) → List (List α)
  | 0, _, _, hier => hier
  | fuel + 1, node, path, hier =>
    match lookupD pm node with
    | [] => hierAdd hier (path ++ [node])
    | c :: cs =>
      (c :: cs).foldl
        (fun h child => build_path pm fuel child (path ++ [node]) (hierAdd h (path ++ [node])))
        hier

/-- create_hierarchy: reset self.hierarchy to an empty set; if a source
is present, run _create_mapping on the existing maps, collect the set of
roots of all parent_map keys, and build the path set from every root.
Note the method resets only the hierarchy attribute — parent_map and
child_map keep whatever entries they already had. -/
def create_hierarchy {α : Type} [DecidableEq α] (st : HState α) (fuel : Nat) : HState α :=
  match st.source with
  | none => { st with hierarchy := some [] }
  | some src =>
    let maps := create_mapping src (st.parent_map, st.child_map)
    let roots := setOfList ((mapKeys maps.1).map (find_root maps.2 fuel))
    let hier := roots.foldl (fun h r => build_path maps.1 fuel r [] h) []
    { st with parent_map := maps.1, child_map := maps.2, hierarchy := some hier }

/-- delete_hierarchy: reset the hierarchy attribute to None. -/
def delete_hierarchy {α : Type} (st : HState α) : HState α :=
  { st with hierarchy := none }

/-- The error of max() over an empty collection inside _flatten_hierarchy
(ValueError in Python; the spec calls the condition EmptyHierarchy). -/
inductive FlattenErr : Type
  | emptyHierarchy
deriving DecidableEq

/-- max(len(lst) for lst in hierarchy) for a nonempty hierarchy. -/
def maxLen {α : Type} (hier : List (List α)) : Nat :=
  hier.foldl (fun m p => Nat.max m p.length) 0

/-- _flatten_hierarchy: fails with the max-of-empty error on an empty
hierarchy; otherwise each path is right-padded with empty_value up to the
maximal path length and, when has_primkey is true, Python's lst[-1:None]
slice (here: drop all but the last element) appends the path's final
pre-padding element; lst[-1:0] when has_primkey is false appends nothing. -/
def flatten_hierarchy {α : Type} [DecidableEq α] (hier : List (List α))
    (emptyValue : α) (hasPrimkey : Bool) : Except FlattenErr (List (List α)) :=
  if hier.isEmpty then Except.error FlattenErr.emptyHierarchy
  else Except.ok (hier.map (fun p =>
    p ++ List.replicate (maxLen hier - p.length) emptyValue ++
      (if hasPrimkey then p.drop (p.length - 1) else [])))

/-- to_tuples: build the hierarchy first when it is None; then return the
flattened row set, or the raw path set when flattened is false.  The
Python method wraps the flattening in try/except: any error is logged and
None is returned, so the result is an Option, not an Except.  The
possibly rebuilt state is returned alongside the result. -/
def to_tuples {α : Type} [DecidableEq α] (st : HState α) (fuel : Nat)
    (flattened : Bool) (emptyValue : α) (hasPrimkey : Bool) :
    HState α × Option (List (List α)) :=
  let st' := match st.hierarchy with
    | none => create_hierarchy st fuel
    | some _ => st
  match st'.hierarchy with
  | none => (st', none)
  | some hier =>
    if flattened then
      match flatten_hierarchy hier emptyValue hasPrimkey with
      | Except.ok rows => (st', some (setOfList rows))
      | Except.error _ => (st', none)
    else (st', some hier)

/-- Python's x or y for an optional string: the default is used when the
label is None or empty (falsy). -/
def orDefault (lbl : Option String) (dflt : String) : String :=
  match lbl with
  | none => dflt
  | some s => if s = "" then dflt else s

/-- Python's {n:02d} format: decimal, left-padded with 0 to two digits. -/
def pad2 (n : Nat) : String :=
  if n < 10 then "0" ++ toString n else toString n

/-- The result of a successful pandas DataFrame construction: column
labels plus rows. -/
structure DataFrame (α : Type) where
  columns : List String
  data : List (List α)

/-- pd.DataFrame(data, columns): succeeds only when every data row has
exactly as many entries as there are column labels, raising (here: none)
on a shape mismatch. -/
def pd_DataFrame {α : Type} (data : List (List α)) (cols : List String) :
    Option (DataFrame α) :=
  if data.all (fun r => r.length = cols.length) then some ⟨cols, data⟩ else none

/-- to_dataframe: build the hierarchy when it is None, then inside the
try block compute max_length (max() raises on an empty hierarchy), build
the column labels — the level labels for 1..max_length, each two-digit
formatted, PLUS unconditionally one trailing primary-key label — and
construct the DataFrame from the flattened rows.  Any exception in the
try block is logged and None is returned. -/
def to_dataframe {α : Type} [DecidableEq α] (st : HState α) (fuel : Nat)
    (emptyValue : α) (levelLabel : Option String) (hasPrimkey : Bool)
    (primkeyLabel : Option String) : HState α × Option (DataFrame α) :=
  let st' := match st.hierarchy with
    | none => create_hierarchy st fuel
    | some _ => st
  match st'.hierarchy with
  | none => (st', none)
  | some hier =>
    if hier.isEmpty then (st', none)
    else
      let maxLength := maxLen hier
      let cols := ((List.range maxLength).map
          (fun i => orDefault levelLabel st'.level ++ pad2 (i + 1))) ++
        [orDefault primkeyLabel st'.primkey]
      match flatten_hierarchy hier emptyValue hasPrimkey with
      | Except.error _ => (st', none)
      | Except.ok rows => (st', pd_DataFrame rows cols)

/-- A path set is closed under taking nonempty initial segments. -/
def PrefClosed {α : Type} (H : List (List α)) : Prop :=
  ∀ p ∈ H, ∀ k, 1 ≤ k → k ≤ p.length → p.take k ∈ H

/-- A pair is recorded in the two maps in the way _create_mapping leaves
it: a self-pair as a bare parent_map key, a proper pair as mutual
membership. -/
def recorded {α : Type} [DecidableEq α] (maps : HMap α × HMap α) (pc : α × α) : Prop :=
  if pc.1 = pc.2 then keyIn maps.1 pc.1
  else pc.2 ∈ lookupD maps.1 pc.1 ∧ pc.1 ∈ lookupD maps.2 pc.2

/-- A Hierarchy built from the single edge (0, 1), then rebuilt after its
source is replaced by the single edge (2, 3). -/
def reusedState : HState Nat :=
  create_hierarchy
    { create_hierarchy (mkState [(0, 1)]) 4 with source := some [(2, 3)] } 4

/-- The hierarchy built from the two edges (0, 2) and (1, 2): node 2 has
the two parents 0 and 1. -/
def twoParentHier : List (List Nat) :=
  ((create_hierarchy (mkState [(0, 2), (1, 2)]) 4).hierarchy).getD []

/-- Membership in a set after set.add. -/
theorem mem_addVal {α : Type} [DecidableEq α] (vs : List α) (v x : α) :
    x ∈ addVal vs v ↔ x ∈ vs ∨ x = v := by
  unfold addVal
  split
  · constructor
    · exact fun h => Or.inl h
    · rintro (h | rfl) <;> assumption
  · simp [List.mem_append]

/-- set.add puts the element in. -/
theorem mem_addVal_self {α : Type} [DecidableEq α] (vs : List α) (v : α) :
    v ∈ addVal vs v :=
  (mem_addVal vs v v).2 (Or.inr rfl)

/-- set.add of a present element changes nothing. -/
theorem addVal_noop {α : Type} [DecidableEq α] (vs : List α) (v : α)
    (h : v ∈ vs) : addVal vs v = vs := by
  unfold addVal
  exact if_pos h

/-- Lookup through mapAdd: the touched key gains the value, others are
untouched. -/
theorem mapFind?_mapAdd {α : Type} [DecidableEq α] (m : HMap α) (k v k' : α) :
    mapFind? (mapAdd m k v) k' =
      if k' = k then some (addVal (lookupD m k) v) else mapFind? m k' := by
  induction m with
  | nil => by_cases h : k' = k <;> simp [mapAdd, mapFind?, lookupD, addVal, h]
  | cons kv rest ih =>
    obtain ⟨k₀, vs⟩ := kv
    by_cases hk : k = k₀
    · subst hk
      by_cases h' : k' = k <;> simp [mapAdd, mapFind?, lookupD, h']
    · have hstep : mapAdd ((k₀, vs) :: rest) k v = (k₀, vs) :: mapAdd rest k v := by
        simp [mapAdd, hk]
      have hlk : lookupD ((k₀, vs) :: rest) k = lookupD rest k := by
        simp [lookupD, mapFind?, hk]
      rw [hstep, hlk]
      by_cases h1 : k' = k₀
      · have h2 : ¬ k' = k := fun hh => hk (hh.symm.trans h1)
        simp [mapFind?, h1, h2, Ne.symm hk]
      · simp [mapFind?, h1, ih]

/-- Lookup through mapTouch: the touched key is present (with its old
value set, or empty when it was absent), others are untouched. -/
theorem mapFind?_mapTouch {α : Type} [DecidableEq α] (m : HMap α) (k k' : α) :
    mapFind? (mapTouch m k) k' =
      if k' = k then some (lookupD m k) else mapFind? m k' := by
  induction m with
  | nil => by_cases h : k' = k <;> simp [mapTouch, mapFind?, lookupD, h]
  | cons kv rest ih =>
    obtain ⟨k₀, vs⟩ := kv
    by_cases hk : k = k₀
    · subst hk
      by_cases h' : k' = k <;> simp [mapTouch, mapFind?, lookupD, h']
    · have hstep : mapTouch ((k₀, vs) :: rest) k = (k₀, vs) :: mapTouch rest k := by
        simp [mapTouch, hk]
      have hlk : lookupD ((k₀, vs) :: rest) k = lookupD rest k := by
        simp [lookupD, mapFind?, hk]
      rw [hstep, hlk]
      by_cases h1 : k' = k₀
      · have h2 : ¬ k' = k := fun hh => hk (hh.symm.trans h1)
        simp [mapFind?, h1, h2, Ne.symm hk]
      · simp [mapFind?, h1, ih]

/-- Value-set membership through mapAdd. -/
theorem mem_lookupD_mapAdd {α : Type} [DecidableEq α] (m : HMap α) (k v k' x : α) :
    x ∈ lookupD (mapAdd m k v) k' ↔ x ∈ lookupD m k' ∨ (k' = k ∧ x = v) := by
  by_cases h : k' = k
  · subst h
    simp [lookupD, mapFind?_mapAdd, mem_addVal]
  · simp [lookupD, mapFind?_mapAdd, h]

/-- mapTouch changes no value set. -/
theorem lookupD_mapTouch {α : Type} [DecidableEq α] (m : HMap α) (k k' : α) :
    lookupD (mapTouch m k) k' = lookupD m k' := by
  by_cases h : k' = k
  · subst h; simp [lookupD, mapFind?_mapTouch]
  · simp [lookupD, mapFind?_mapTouch, h]

/-- Key presence through mapAdd. -/
theorem keyIn_mapAdd {α : Type} [DecidableEq α] (m : HMap α) (k v k' : α) :
    keyIn (mapAdd m k v) k' ↔ k' = k ∨ keyIn m k' := by
  by_cases h : k' = k <;> simp [keyIn, mapFind?_mapAdd, h]

/-- Key presence through mapTouch. -/
theorem keyIn_mapTouch {α : Type} [DecidableEq α] (m : HMap α) (k k' : α) :
    keyIn (mapTouch m k) k' ↔ k' = k ∨ keyIn m k' := by
  by_cases h : k' = k <;> simp [keyIn, mapFind?_mapTouch, h]

/-- Adding an edge that is already recorded changes nothing. -/
theorem mapAdd_noop {α : Type} [DecidableEq α] (m : HMap α) (k v : α)
    (h : v ∈ lookupD m k) : mapAdd m k v = m := by
  induction m with
  | nil => simp [lookupD, mapFind?] at h
  | cons kv rest ih =>
    obtain ⟨k₀, vs⟩ := kv
    by_cases hk : k = k₀
    · subst hk
      simp [lookupD, mapFind?] at h
      simp [mapAdd, addVal_noop vs v h]
    · simp [lookupD, mapFind?, hk] at h
      simp [mapAdd, hk, ih (by simpa [lookupD] using h)]

/-- Touching a present key changes nothing. -/
theorem mapTouch_noop {α : Type} [DecidableEq α] (m : HMap α) (k : α)
    (h : keyIn m k) : mapTouch m k = m := by
  induction m with
  | nil => simp [keyIn, mapFind?] at h
  | cons kv rest ih =>
    obtain ⟨k₀, vs⟩ := kv
    by_cases hk : k = k₀
    · subst hk; simp [mapTouch]
    · simp [keyIn, mapFind?, hk] at h
      simp [mapTouch, hk, ih (by simpa [keyIn] using h)]

/-- A fold preserves any invariant its step preserves. -/
theorem foldl_preserve {γ β : Type} (J : γ → Prop) (f : γ → β → γ) :
    ∀ (l : List β) (g : γ), J g → (∀ g' b, b ∈ l → J g' → J (f g' b)) →
      J (l.foldl f g)
  | [], _g, hg, _ => hg
  | b :: t, g, hg, hstep =>
    foldl_preserve J f t (f g b) (hstep g b (List.mem_cons_self b t) hg)
      (fun g' b' hb' => hstep g' b' (List.mem_cons_of_mem b hb'))

/-- The seed is a lower bound of the running maximum. -/
theorem le_foldl_max {α : Type} (l : List (List α)) :
    ∀ acc : Nat, acc ≤ l.foldl (fun m p => Nat.max m p.length) acc := by
  induction l with
  | nil => intro acc; exact Nat.le_refl acc
  | cons q t ih =>
    intro acc
    exact Nat.le_trans (Nat.le_max_left acc q.length) (ih (Nat.max acc q.length))

/-- Every member's length is bounded by the running maximum. -/
theorem length_le_foldl_max {α : Type} (l : List (List α)) (p : List α)
    (hp : p ∈ l) : ∀ acc : Nat, p.length ≤ l.foldl (fun m p => Nat.max m p.length) acc := by
  induction l with
  | nil => cases hp
  | cons q t ih =>
    intro acc
    rcases List.mem_cons.1 hp with h | h
    · subst h
      exact Nat.le_trans (Nat.le_max_right acc p.length) (le_foldl_max t _)
    · exact ih h _

/-- The running maximum is the seed or some member's length. -/
theorem foldl_max_attained {α : Type} (l : List (List α)) :
    ∀ acc : Nat, l.foldl (fun m p => Nat.max m p.length) acc = acc ∨
      ∃ p ∈ l, l.foldl (fun m p => Nat.max m p.length) acc = p.length := by
  induction l with
  | nil => intro acc; exact Or.inl rfl
  | cons q t ih =>
    intro acc
    rcases ih (Nat.max acc q.length) with h | ⟨p, hp, h⟩
    · rcases Nat.le_total acc q.length with hle | hle
      · have hmax : Nat.max acc q.length = q.length := Nat.max_eq_right hle
        rw [hmax] at h
        exact Or.inr ⟨q, List.mem_cons_self q t,
          by simp only [List.foldl_cons]; rw [hmax]; exact h⟩
      · have hmax : Nat.max acc q.length = acc := Nat.max_eq_left hle
        rw [hmax] at h
        exact Or.inl (by simp only [List.foldl_cons]; rw [hmax]; exact h)
    · exact Or.inr ⟨p, List.mem_cons_of_mem q hp,
        by simp only [List.foldl_cons]; exact h⟩

/-- maxLen bounds every path length. -/
theorem length_le_maxLen {α : Type} (H : List (List α)) (p : List α)
    (hp : p ∈ H) : p.length ≤ maxLen H :=
  length_le_foldl_max H p hp 0

/-- On a nonempty hierarchy, maxLen is the length of some path. -/
theorem maxLen_attained {α : Type} (H : List (List α)) (hne : H ≠ []) :
    ∃ p ∈ H, p.length = maxLen H := by
  rcases foldl_max_attained H 0 with h | ⟨p, hp, h⟩
  · obtain ⟨q, t, rfl⟩ := List.exists_cons_of_ne_nil hne
    have h1 := length_le_maxLen (q :: t) q (List.mem_cons_self q t)
    have h2 : maxLen (q :: t) = 0 := h
    exact ⟨q, List.mem_cons_self q t, by omega⟩
  · exact ⟨p, hp, h.symm⟩

/-- On a nonempty list, dropping all but one element leaves exactly the
last element (Python's lst[-1:] slice). -/
theorem drop_length_sub_one {α : Type} :
    ∀ (p : List α), p ≠ [] → ∃ x, p.getLast? = some x ∧ p.drop (p.length - 1) = [x]
  | [], h => absurd rfl h
  | [a], _ => ⟨a, rfl, rfl⟩
  | a :: b :: t, _ => by
    obtain ⟨x, h1, h2⟩ := drop_length_sub_one (b :: t) (by simp)
    refine ⟨x, by rw [List.getLast?_cons_cons]; exact h1, ?_⟩
    have hlen : (a :: b :: t).length - 1 = (b :: t).length - 1 + 1 := by
      simp [List.length_cons]
    rw [hlen, List.drop_succ_cons]
    exact h2

/-- Membership in the path set after hierarchy.add. -/
theorem mem_hierAdd {α : Type} [DecidableEq α] (h : List (List α)) (p q : List α) :
    q ∈ hierAdd h p ↔ q ∈ h ∨ q = p := by
  unfold hierAdd
  split
  · constructor
    · exact fun hq => Or.inl hq
    · rintro (hq | rfl) <;> assumption
  · simp [List.mem_append]

/-- hierarchy.add puts the path in. -/
theorem mem_hierAdd_self {α : Type} [DecidableEq α] (h : List (List α)) (p : List α) :
    p ∈ hierAdd h p :=
  (mem_hierAdd h p p).2 (Or.inr rfl)

/-- hierarchy.add keeps old members. -/
theorem mem_hierAdd_of {α : Type} [DecidableEq α] (h : List (List α)) (p q : List α)
    (hq : q ∈ h) : q ∈ hierAdd h p :=
  (mem_hierAdd h p q).2 (Or.inl hq)

/-- _build_path never removes a recorded path. -/
theorem build_path_mono {α : Type} [DecidableEq α] (pm : HMap α) :
    ∀ (fuel : Nat) (node : α) (path : List α) (hier : List (List α)) (q : List α),
      q ∈ hier → q ∈ build_path pm fuel node path hier := by
  intro fuel
  induction fuel with
  | zero => intro node path hier q hq; simpa [build_path] using hq
  | succ fuel ih =>
    intro node path hier q hq
    cases hL : lookupD pm node with
    | nil =>
      simp only [build_path, hL]
      exact mem_hierAdd_of _ _ _ hq
    | cons c cs =>
      simp only [build_path, hL]
      exact foldl_preserve (fun g => q ∈ g) _ (c :: cs) hier hq
        (fun g' b _ hg => ih b (path ++ [node]) (hierAdd g' (path ++ [node])) q
          (mem_hierAdd_of _ _ _ hg))

/-- If every nonempty initial segment of a path is recorded, then after
adding the path extended by one node, every nonempty initial segment of
the extended path is recorded too. -/
theorem takes_in_hierAdd {α : Type} [DecidableEq α] (h : List (List α))
    (path : List α) (node : α)
    (H : ∀ k, 1 ≤ k → k ≤ path.length → path.take k ∈ h) :
    ∀ k, 1 ≤ k → k ≤ (path ++ [node]).length →
      (path ++ [node]).take k ∈ hierAdd h (path ++ [node]) := by
  intro k h1 h2
  by_cases hk : k ≤ path.length
  · rw [List.take_append_of_le_length hk]
    exact mem_hierAdd_of _ _ _ (H k h1 hk)
  · have hlen : (path ++ [node]).length = path.length + 1 := by simp
    have hk2 : k = (path ++ [node]).length := by rw [hlen]; rw [hlen] at h2; omega
    rw [hk2, List.take_length]
    exact mem_hierAdd_self _ _

/-- Adding an extended path whose shorter initial segments are already
recorded keeps the path set closed under initial segments. -/
theorem pc_hierAdd {α : Type} [DecidableEq α] (h : List (List α))
    (path : List α) (node : α) (hc : PrefClosed h)
    (H : ∀ k, 1 ≤ k → k ≤ path.length → path.take k ∈ h) :
    PrefClosed (hierAdd h (path ++ [node])) := by
  intro p hp k h1 h2
  rcases (mem_hierAdd _ _ _).1 hp with hph | rfl
  · exact mem_hierAdd_of _ _ _ (hc p hph k h1 h2)
  · exact takes_in_hierAdd h path node H k h1 h2

/-- _build_path keeps the path set closed under nonempty initial
segments, provided the initial segments of the path built so far are
already recorded. -/
theorem build_path_pc {α : Type} [DecidableEq α] (pm : HMap α) :
    ∀ (fuel : Nat) (node : α) (path : List α) (hier : List (List α)),
      PrefClosed hier →
      (∀ k, 1 ≤ k → k ≤ path.length → path.take k ∈ hier) →
      PrefClosed (build_path pm fuel node path hier) := by
  intro fuel
  induction fuel with
  | zero => intro node path hier hc _; simpa [build_path] using hc
  | succ fuel ih =>
    intro node path hier hc hpre
    cases hL : lookupD pm node with
    | nil =>
      simp only [build_path, hL]
      exact pc_hierAdd hier path node hc hpre
    | cons c cs =>
      simp only [build_path, hL]
      have hmain := foldl_preserve
        (fun g => PrefClosed g ∧ ∀ k, 1 ≤ k → k ≤ path.length → path.take k ∈ g)
        (fun h child => build_path pm fuel child (path ++ [node])
          (hierAdd h (path ++ [node])))
        (c :: cs) hier ⟨hc, hpre⟩
        (fun g' b _ hg =>
          ⟨ih b (path ++ [node]) (hierAdd g' (path ++ [node]))
              (pc_hierAdd g' path node hg.1 hg.2)
              (takes_in_hierAdd g' path node hg.2),
            fun k h1 h2 => build_path_mono pm fuel b (path ++ [node]) _ _
              (mem_hierAdd_of _ _ _ (hg.2 k h1 h2))⟩)
      exact hmain.1

/-- One mapping step never erases a recorded pair. -/
theorem recorded_mapStep {α : Type} [DecidableEq α] (maps : HMap α × HMap α)
    (pc pc' : α × α) (h : recorded maps pc) : recorded (mapStep maps pc') pc := by
  unfold recorded at *
  unfold mapStep
  by_cases h0 : pc'.1 = pc'.2
  · simp only [if_pos h0]
    by_cases h1 : pc.1 = pc.2
    · simp only [if_pos h1] at *
      exact (keyIn_mapTouch _ _ _).2 (Or.inr h)
    · simp only [if_neg h1] at *
      exact ⟨by rw [lookupD_mapTouch]; exact h.1, h.2⟩
  · simp only [if_neg h0]
    by_cases h1 : pc.1 = pc.2
    · simp only [if_pos h1] at *
      exact (keyIn_mapAdd _ _ _ _).2 (Or.inr h)
    · simp only [if_neg h1] at *
      exact ⟨(mem_lookupD_mapAdd _ _ _ _ _).2 (Or.inl h.1),
        (mem_lookupD_mapAdd _ _ _ _ _).2 (Or.inl h.2)⟩

/-- A mapping step records its own pair. -/
theorem recorded_mapStep_self {α : Type} [DecidableEq α] (maps : HMap α × HMap α)
    (pc : α × α) : recorded (mapStep maps pc) pc := by
  unfold recorded mapStep
  by_cases h0 : pc.1 = pc.2
  · simp only [if_pos h0]
    exact (keyIn_mapTouch _ _ _).2 (Or.inl rfl)
  · simp only [if_neg h0]
    exact ⟨(mem_lookupD_mapAdd _ _ _ _ _).2 (Or.inr ⟨rfl, rfl⟩),
      (mem_lookupD_mapAdd _ _ _ _ _).2 (Or.inr ⟨rfl, rfl⟩)⟩

/-- _create_mapping never erases a recorded pair. -/
theorem recorded_create_mapping_of {α : Type} [DecidableEq α] (src : List (α × α)) :
    ∀ (maps : HMap α × HMap α) (pc : α × α), recorded maps pc →
      recorded (create_mapping src maps) pc := by
  induction src with
  | nil => intro maps pc h; exact h
  | cons q t ih =>
    intro maps pc h
    exact ih (mapStep maps q) pc (recorded_mapStep maps pc q h)

/-- After _create_mapping, every source pair is recorded. -/
theorem create_mapping_records {α : Type} [DecidableEq α] (src : List (α × α)) :
    ∀ (maps : HMap α × HMap α) (pc : α × α), pc ∈ src →
      recorded (create_mapping src maps) pc := by
  induction src with
  | nil => intro maps pc h; cases h
  | cons q t ih =>
    intro maps pc h
    rcases List.mem_cons.1 h with rfl | h
    · exact recorded_create_mapping_of t (mapStep maps pc) pc
        (recorded_mapStep_self maps pc)
    · exact ih (mapStep maps q) pc h

/-- A mapping step for an already recorded pair changes nothing. -/
theorem mapStep_noop {α : Type} [DecidableEq α] (maps : HMap α × HMap α)
    (pc : α × α) (h : recorded maps pc) : mapStep maps pc = maps := by
  unfold recorded at h
  unfold mapStep
  by_cases h0 : pc.1 = pc.2
  · simp only [if_pos h0] at *
    rw [mapTouch_noop maps.1 pc.1 h]
  · simp only [if_neg h0] at *
    rw [mapAdd_noop maps.1 pc.1 pc.2 h.1, mapAdd_noop maps.2 pc.2 pc.1 h.2]

/-- _create_mapping over a source all of whose pairs are already
recorded changes nothing. -/
theorem create_mapping_noop {α : Type} [DecidableEq α] (src : List (α × α)) :
    ∀ maps : HMap α × HMap α, (∀ pc ∈ src, recorded maps pc) →
      create_mapping src maps = maps := by
  induction src with
  | nil => intro maps _; rfl
  | cons q t ih =>
    intro maps h
    have h1 : mapStep maps q = maps := mapStep_noop maps q (h q (List.mem_cons_self q t))
    have h2 := ih maps (fun pc hpc => h pc (List.mem_cons_of_mem q hpc))
    calc create_mapping (q :: t) maps = create_mapping t (mapStep maps q) := rfl
    _ = create_mapping t maps := by rw [h1]
    _ = maps := h2

/-- Running _create_mapping twice over the same source is the same as
running it once. -/
theorem create_mapping_idem {α : Type} [DecidableEq α] (src : List (α × α))
    (maps : HMap α × HMap α) :
    create_mapping src (create_mapping src maps) = create_mapping src maps :=
  create_mapping_noop src _ (fun pc hpc => create_mapping_records src maps pc hpc)

/-- A mapping step keeps the two maps mutually consistent. -/
theorem mutual_mapStep {α : Type} [DecidableEq α] (maps : HMap α × HMap α) (q : α × α)
    (h : ∀ p c, c ∈ lookupD maps.1 p ↔ p ∈ lookupD maps.2 c) :
    ∀ p c, c ∈ lookupD (mapStep maps q).1 p ↔ p ∈ lookupD (mapStep maps q).2 c := by
  intro p c
  unfold mapStep
  by_cases h0 : q.1 = q.2
  · simp only [if_pos h0]
    rw [lookupD_mapTouch]
    exact h p c
  · simp only [if_neg h0, mem_lookupD_mapAdd]
    rw [h p c]
    tauto

/-- _create_mapping keeps the two maps mutually consistent. -/
theorem mutual_create_mapping {α : Type} [DecidableEq α] (src : List (α × α)) :
    ∀ maps : HMap α × HMap α,
      (∀ p c, c ∈ lookupD maps.1 p ↔ p ∈ lookupD maps.2 c) →
      ∀ p c, c ∈ lookupD (create_mapping src maps).1 p ↔
        p ∈ lookupD (create_mapping src maps).2 c := by
  induction src with
  | nil => intro maps h; exact h
  | cons q t ih => intro maps h; exact ih (mapStep maps q) (mutual_mapStep maps q h)

/-- C1 counterexample.  The claim states that flattening an empty
Hierarchy via to_tuples fails with an EmptyHierarchy error rather than
returning a meaningless result.  On a Hierarchy built from an empty edge
list (zero paths), to_tuples with flattened output returns the sentinel
None as an ordinary value — the try/except inside to_tuples swallows the
max-of-empty error, so no error reaches the caller. -/
theorem c1_empty_flatten_returns_none :
    (to_tuples (mkState ([] : List (Nat × Nat))) 4 true 0 true).2 = none := by rfl

/-- C1 amended.  Flattening an empty Hierarchy makes the inner
_flatten_hierarchy step fail with the EmptyHierarchy (max-of-empty)
error, and to_tuples with flattened output catches that error and
returns None — it never returns an empty row set, but the error does not
propagate to the caller. -/
theorem c1_empty_flatten_error_swallowed {α : Type} [DecidableEq α]
    (st : HState α) (fuel : Nat) (e : α) (pk : Bool)
    (h : st.hierarchy = some []) :
    flatten_hierarchy ([] : List (List α)) e pk =
      Except.error FlattenErr.emptyHierarchy ∧
    (to_tuples st fuel true e pk).2 = none := by
  constructor
  · rfl
  · simp [to_tuples, h, flatten_hierarchy]

/-- C1 witness: the amended statement at a concrete empty Hierarchy. -/
theorem c1_empty_flatten_error_swallowed_witness :
    flatten_hierarchy ([] : List (List Nat)) 0 true =
      Except.error FlattenErr.emptyHierarchy ∧
    (to_tuples (create_hierarchy (mkState ([] : List (Nat × Nat))) 1) 3 true 0 true).2 = none :=
  c1_empty_flatten_error_swallowed
    (create_hierarchy (mkState ([] : List (Nat × Nat))) 1) 3 0 true rfl

/-- C2: on a nonempty Hierarchy whose paths are nonempty (as all built
paths are), flattening succeeds and emits for each path P exactly the row
P ++ [empty_value] * (max_length - len P) followed, precisely when
has_primkey is true, by one trailing copy of P's final pre-padding
element; every emitted row arises this way, max_length is the length of
the longest path, and every row has length max_length plus 1 when
has_primkey else plus 0. -/
theorem c2_flatten_rows_spec {α : Type} [DecidableEq α] (H : List (List α))
    (e : α) (pk : Bool) (hne : H ≠ []) (hpaths : ∀ p ∈ H, p ≠ []) :
    ∃ rows, flatten_hierarchy H e pk = Except.ok rows ∧
      (∀ p ∈ H, ∃ x, p.getLast? = some x ∧
        p ++ List.replicate (maxLen H - p.length) e ++
          (if pk then [x] else []) ∈ rows) ∧
      (∀ r ∈ rows, ∃ p, p ∈ H ∧ ∃ x, p.getLast? = some x ∧
        r = p ++ List.replicate (maxLen H - p.length) e ++
          (if pk then [x] else [])) ∧
      (∀ p ∈ H, p.length ≤ maxLen H) ∧
      (∃ p ∈ H, p.length = maxLen H) ∧
      (∀ r ∈ rows, r.length = maxLen H + (if pk then 1 else 0)) := by
  have hEmpty : H.isEmpty = false := by
    cases H with
    | nil => exact absurd rfl hne
    | cons a t => rfl
  refine ⟨H.map (fun p => p ++ List.replicate (maxLen H - p.length) e ++
      (if pk then p.drop (p.length - 1) else [])), ?_, ?_, ?_, ?_, ?_, ?_⟩
  · simp [flatten_hierarchy, hEmpty]
  · intro p hp
    obtain ⟨x, hx1, hx2⟩ := drop_length_sub_one p (hpaths p hp)
    refine ⟨x, hx1, List.mem_map.2 ⟨p, hp, ?_⟩⟩
    cases pk <;> simp [hx2]
  · intro r hr
    obtain ⟨p, hp, hpr⟩ := List.mem_map.1 hr
    obtain ⟨x, hx1, hx2⟩ := drop_length_sub_one p (hpaths p hp)
    refine ⟨p, hp, x, hx1, ?_⟩
    rw [← hpr]
    cases pk <;> simp [hx2]
  · exact fun p hp => length_le_maxLen H p hp
  · exact maxLen_attained H hne
  · intro r hr
    obtain ⟨p, hp, hpr⟩ := List.mem_map.1 hr
    obtain ⟨x, hx1, hx2⟩ := drop_length_sub_one p (hpaths p hp)
    have hle := length_le_maxLen H p hp
    rw [← hpr]
    cases pk <;> simp [hx2] <;> omega

/-- C2 witness: the flattening contract at the concrete Hierarchy
consisting of the paths (0,) and (0, 1). -/
theorem c2_flatten_rows_spec_witness :
    ∃ rows, flatten_hierarchy [[0], [0, 1]] 7 true = Except.ok rows ∧
      (∀ p ∈ [[0], [0, 1]], ∃ x, p.getLast? = some x ∧
        p ++ List.replicate (maxLen [[0], [0, 1]] - p.length) 7 ++
          (if true then [x] else []) ∈ rows) ∧
      (∀ r ∈ rows, ∃ p, p ∈ [[0], [0, 1]] ∧ ∃ x, p.getLast? = some x ∧
        r = p ++ List.replicate (maxLen [[0], [0, 1]] - p.length) 7 ++
          (if true then [x] else [])) ∧
      (∀ p ∈ [[0], [0, 1]], p.length ≤ maxLen [[0], [0, 1]]) ∧
      (∃ p ∈ [[0], [0, 1]], p.length = maxLen [[0], [0, 1]]) ∧
      (∀ r ∈ rows, r.length = maxLen [[0], [0, 1]] + (if true then 1 else 0)) :=
  c2_flatten_rows_spec [[0], [0, 1]] 7 true (by decide) (by decide)

/-- C3: whatever Hierarchy create_hierarchy builds is closed under
nonempty initial segments: for every path P it contains and every k with
1 <= k <= len P, the segment P.take k is also contained. -/
theorem c3_closed_under_take {α : Type} [DecidableEq α] (st : HState α)
    (fuel : Nat) (H : List (List α))
    (h : (create_hierarchy st fuel).hierarchy = some H) : PrefClosed H := by
  cases hs : st.source with
  | none =>
    simp [create_hierarchy, hs] at h
    subst h
    exact fun p hp => absurd hp (List.not_mem_nil p)
  | some src =>
    simp [create_hierarchy, hs] at h
    subst h
    exact foldl_preserve PrefClosed _ _ []
      (fun p hp => absurd hp (List.not_mem_nil p))
      (fun g' r _ hg => build_path_pc _ fuel r [] g' hg
        (fun k h1 h2 => absurd (Nat.le_trans h1 h2) (Nat.not_succ_le_zero 0)))

/-- C3 witness: the Hierarchy built from the single edge (0, 1) is
closed under nonempty initial segments. -/
theorem c3_closed_under_take_witness : PrefClosed [[0], [0, 1]] :=
  c3_closed_under_take (mkState [(0, 1)]) 4 [[0], [0, 1]] rfl

/-- C4 counterexample.  The claim states that each build resets
ParentMap and ChildMap so that after building they contain exactly the
entries derived from the current source.  Build from source [(0, 1)],
replace the source by [(2, 3)], rebuild: the stale entry 0 -> {1} from
the previous build is still in ParentMap, and the maps differ from those
of a fresh build on [(2, 3)] — the maps are merged, not reset. -/
theorem c4_maps_not_reset :
    mapFind? reusedState.parent_map 0 = some [1] ∧
    reusedState.parent_map ≠ (create_hierarchy (mkState [(2, 3)]) 4).parent_map := by
  decide

/-- C4 amended.  create_hierarchy resets only the hierarchy attribute;
ParentMap and ChildMap are not reset — entries accumulate across builds.
Rebuilding with an unchanged source is idempotent (a second invocation of
create_hierarchy reproduces the identical state), and the build touches
no attribute beyond the two maps and the hierarchy: source, level,
primkey, metadata and hierarchydb are unchanged. -/
theorem c4_rebuild_idem_frame {α : Type} [DecidableEq α] (st : HState α) (fuel : Nat) :
    create_hierarchy (create_hierarchy st fuel) fuel = create_hierarchy st fuel ∧
    (create_hierarchy st fuel).source = st.source ∧
    (create_hierarchy st fuel).level = st.level ∧
    (create_hierarchy st fuel).primkey = st.primkey ∧
    (create_hierarchy st fuel).metadata = st.metadata ∧
    (create_hierarchy st fuel).hierarchydb = st.hierarchydb := by
  refine ⟨?_, ?_, ?_, ?_, ?_, ?_⟩ <;>
    cases hs : st.source <;>
    simp [create_hierarchy, hs, create_mapping_idem]

/-- C5 code evaluation at the failing input.  The claim (and the
docstring of to_dataframe) says the trailing primary-key column label is
assigned only when has_primkey is true and that rendering succeeds
without it.  The code always appends the primary-key label, so with
has_primkey = false the label count exceeds the row width, the DataFrame
constructor raises, and to_dataframe returns None; with
has_primkey = true it succeeds with labels LVL01, LVL02, PK. -/
theorem c5_dataframe_primkey_label :
    (to_dataframe (mkState [(0, 1)]) 4 9 none false none).2 = none ∧
    (to_dataframe (mkState [(0, 1)]) 4 9 none true none).2 =
      some ⟨["LVL01", "LVL02", "PK"], [[0, 9, 0], [0, 1, 1]]⟩ := by
  constructor <;> rfl

/-- C6 counterexample.  The claim states that for edges
[(A, C), (B, C)] the Hierarchy contains exactly one of the families
{(A,), (A, C)} or {(B, ), (B, C)} — never both.  With A = 0, B = 1,
C = 2 the built Hierarchy contains both families in full, so the
exactly-one disjunction is false. -/
theorem c6_not_exactly_one_family :
    ¬ ((([0] ∈ twoParentHier ∧ [0, 2] ∈ twoParentHier) ∧
        ¬ ([1] ∈ twoParentHier ∧ [1, 2] ∈ twoParentHier)) ∨
       (([1] ∈ twoParentHier ∧ [1, 2] ∈ twoParentHier) ∧
        ¬ ([0] ∈ twoParentHier ∧ [0, 2] ∈ twoParentHier))) := by
  decide

/-- C6 amended.  For edges [(A, C), (B, C)] with A, B, C distinct, both
A and B are parents and neither occurs as a child, so both are found as
roots (_find_root is applied only to ParentMap keys, and its
nondeterministic parent pick never fires for them); the resulting
Hierarchy deterministically contains BOTH families: it is exactly
{(A,), (A, C), (B,), (B, C)}. -/
theorem c6_two_parent_hierarchy {α : Type} [DecidableEq α] (a b c : α)
    (fuel : Nat) (hab : a ≠ b) (hac : a ≠ c) (hbc : b ≠ c) (hfuel : 2 ≤ fuel) :
    (create_hierarchy (mkState [(a, c), (b, c)]) fuel).hierarchy =
      some [[a], [a, c], [b], [b, c]] := by
  obtain ⟨n, rfl⟩ : ∃ n, fuel = n + 2 := ⟨fuel - 2, by omega⟩
  simp [create_hierarchy, mkState, create_mapping, mapStep, mapAdd, addVal,
    mapTouch, mapKeys, setOfList, find_root, mapFind?, lookupD, build_path,
    hierAdd, hab, hac, hbc, Ne.symm hab, Ne.symm hac, Ne.symm hbc]

/-- C6 witness: the amended statement at A = 0, B = 1, C = 2. -/
theorem c6_two_parent_hierarchy_witness :
    (create_hierarchy (mkState [(0, 2), (1, 2)]) 2).hierarchy =
      some [[0], [0, 2], [1], [1, 2]] :=
  c6_two_parent_hierarchy 0 1 2 2 (by decide) (by decide) (by decide) (by decide)

/-- C7: a source containing any row that is not an exactly-2-element
pair is rejected by construction with the InvalidSourceShape error.  The
error return carries no state at all, so in particular no map was built
and no partial map state exists (on the success path the maps are
created empty and are only populated later by create_hierarchy). -/
theorem c7_invalid_shape_rejected {α : Type} [DecidableEq α]
    (rows : List (List α)) (h : ∃ r ∈ rows, r.length ≠ 2) :
    hierarchyInit rows = Except.error SourceErr.invalidSourceShape := by
  obtain ⟨r, hr, hlen⟩ := h
  have hcond : ¬ (rows.all (fun r => r.length = 2) = true) := by
    intro hall
    have hr2 := List.all_eq_true.1 hall r hr
    simp at hr2
    exact hlen hr2
  unfold hierarchyInit
  rw [if_neg hcond]

/-- C7 witness: the one-element row [0] is rejected. -/
theorem c7_invalid_shape_rejected_witness :
    hierarchyInit [[(0 : Nat)]] = Except.error SourceErr.invalidSourceShape :=
  c7_invalid_shape_rejected [[(0 : Nat)]] ⟨[0], by decide, by decide⟩

/-- C8: from the single self-referencing edge (A, A), the node is
registered in ParentMap with an empty child set, ChildMap stays empty
(no self-edge in either map), and the resulting Hierarchy is exactly
the single one-element path (A,). -/
theorem c8_self_loop {α : Type} [DecidableEq α] (a : α) (fuel : Nat)
    (h : 1 ≤ fuel) :
    (create_hierarchy (mkState [(a, a)]) fuel).hierarchy = some [[a]] ∧
    (create_hierarchy (mkState [(a, a)]) fuel).parent_map = [(a, [])] ∧
    (create_hierarchy (mkState [(a, a)]) fuel).child_map = [] := by
  obtain ⟨n, rfl⟩ : ∃ n, fuel = n + 1 := ⟨fuel - 1, by omega⟩
  refine ⟨?_, ?_, ?_⟩ <;>
    simp [create_hierarchy, mkState, create_mapping, mapStep, mapTouch,
      mapKeys, setOfList, find_root, mapFind?, lookupD, build_path, hierAdd]

/-- C8 witness: the self-loop behaviour at the concrete node 0. -/
theorem c8_self_loop_witness :
    (create_hierarchy (mkState [((0 : Nat), 0)]) 1).hierarchy = some [[0]] ∧
    (create_hierarchy (mkState [((0 : Nat), 0)]) 1).parent_map = [(0, [])] ∧
    (create_hierarchy (mkState [((0 : Nat), 0)]) 1).child_map = [] :=
  c8_self_loop 0 1 (by decide)

/-- C9: after the maps are built from any source on a freshly
constructed object, ParentMap and ChildMap are mutually consistent: c is
among the children of p iff p is among the parents of c. -/
theorem c9_maps_mutually_consistent {α : Type} [DecidableEq α]
    (src : List (α × α)) (fuel : Nat) (p c : α) :
    c ∈ lookupD (create_hierarchy (mkState src) fuel).parent_map p ↔
    p ∈ lookupD (create_hierarchy (mkState src) fuel).child_map c := by
  have h := mutual_create_mapping src ([], [])
    (fun p c => by simp [lookupD, mapFind?]) p c
  simpa [create_hierarchy, mkState] using h

/-- C10: delete_hierarchy sets only the hierarchy attribute to None and
leaves every other attribute unchanged (source, parent_map, child_map,
level, primkey, metadata, hierarchydb); a subsequent read through
to_tuples then rebuilds via create_hierarchy from that unchanged state. -/
theorem c10_delete_frame_then_rebuild {α : Type} [DecidableEq α]
    (st : HState α) (fuel : Nat) (flattened : Bool) (e : α) (pk : Bool) :
    (delete_hierarchy st).hierarchy = none ∧
    (delete_hierarchy st).source = st.source ∧
    (delete_hierarchy st).parent_map = st.parent_map ∧
    (delete_hierarchy st).child_map = st.child_map ∧
    (delete_hierarchy st).level = st.level ∧
    (delete_hierarchy st).primkey = st.primkey ∧
    (delete_hierarchy st).metadata = st.metadata ∧
    (delete_hierarchy st).hierarchydb = st.hierarchydb ∧
    (to_tuples (delete_hierarchy st) fuel flattened e pk).1 =
      create_hierarchy (delete_hierarchy st) fuel := by
  refine ⟨rfl, rfl, rfl, rfl, rfl, rfl, rfl, rfl, ?_⟩
  simp only [to_tuples, delete_hierarchy]
  cases hh : (create_hierarchy { st with hierarchy := none } fuel).hierarchy with
  | none => simp [hh]
  | some hier =>
    cases flattened with
    | false => simp [hh]
    | true =>
      cases hf : flatten_hierarchy hier e pk with
      | ok rows => simp [hh, hf]
      | error err => simp [hh, hf]
